import Mathlib

/-!
# Verification of the VC news analyzer pipeline (`VC_News_Analyzer.py`)

Shallow embedding of the deduplication / history / workflow pipeline of
`VC_News_Analyzer.py` together with the library routines it relies on:

* `hashlib.md5(...).hexdigest()` is modelled bit-for-bit (RFC 1321) over the
  UTF-8 encoding of the input string;
* `urllib.parse.urlparse` / `urlunparse` are modelled after the CPython 3.11
  algorithm (WHATWG prefix strip, unsafe-byte removal, scheme split with
  lowercasing, netloc split, fragment/query split, `;params` split for schemes
  in `uses_params`, and `urlunsplit` reassembly).  The library's `ValueError`
  paths for bracketed IPv6 hosts and its NFKC netloc check — input validation
  inside `urllib` that is independent of the normalization this program uses —
  are outside the model.
-/

namespace VCNews

/-! ## MD5 (models `hashlib.md5(s.encode()).hexdigest()`) -/

/-- UTF-8 encoding of a single character (what Python's `str.encode()` does). -/
def charUtf8 (c : Char) : List Nat :=
  let n := c.toNat
  if n < 128 then [n]
  else if n < 2048 then [192 + n / 64, 128 + n % 64]
  else if n < 65536 then [224 + n / 4096, 128 + n / 64 % 64, 128 + n % 64]
  else [240 + n / 262144, 128 + n / 4096 % 64, 128 + n / 64 % 64, 128 + n % 64]

/-- UTF-8 bytes of a string. -/
def strUtf8 (s : String) : List Nat := s.data.flatMap charUtf8

def u32 (n : Nat) : Nat := n % 4294967296

/-- Left rotation of a 32-bit word. -/
def rotl32 (x n : Nat) : Nat := u32 (x % 4294967296 * 2 ^ n) + x % 4294967296 / 2 ^ (32 - n)

def md5F (b c d : Nat) : Nat := Nat.lor (Nat.land b c) (Nat.land (4294967295 - u32 b) d)
def md5G (b c d : Nat) : Nat := Nat.lor (Nat.land b d) (Nat.land c (4294967295 - u32 d))
def md5H (b c d : Nat) : Nat := Nat.xor b (Nat.xor c d)
def md5I (b c d : Nat) : Nat := Nat.xor c (Nat.lor b (4294967295 - u32 d))

/-- The 64 sine-derived MD5 constants (RFC 1321 table T). -/
def md5K : List Nat := [
  3614090360, 3905402710, 606105819, 3250441966, 4118548399, 1200080426, 2821735955, 4249261313,
  1770035416, 2336552879, 4294925233, 2304563134, 1804603682, 4254626195, 2792965006, 1236535329,
  4129170786, 3225465664, 643717713, 3921069994, 3593408605, 38016083, 3634488961, 3889429448,
  568446438, 3275163606, 4107603335, 1163531501, 2850285829, 4243563512, 1735328473, 2368359562,
  4294588738, 2272392833, 1839030562, 4259657740, 2763975236, 1272893353, 4139469664, 3200236656,
  681279174, 3936430074, 3572445317, 76029189, 3654602809, 3873151461, 530742520, 3299628645,
  4096336452, 1126891415, 2878612391, 4237533241, 1700485571, 2399980690, 4293915773, 2240044497,
  1873313359, 4264355552, 2734768916, 1309151649, 4149444226, 3174756917, 718787259, 3951481745]

/-- The per-round left-rotation amounts. -/
def md5S : List Nat := [
  7, 12, 17, 22, 7, 12, 17, 22, 7, 12, 17, 22, 7, 12, 17, 22,
  5, 9, 14, 20, 5, 9, 14, 20, 5, 9, 14, 20, 5, 9, 14, 20,
  4, 11, 16, 23, 4, 11, 16, 23, 4, 11, 16, 23, 4, 11, 16, 23,
  6, 10, 15, 21, 6, 10, 15, 21, 6, 10, 15, 21, 6, 10, 15, 21]

/-- Message-word index used at step `i`. -/
def md5Gidx (i : Nat) : Nat :=
  if i < 16 then i
  else if i < 32 then (5 * i + 1) % 16
  else if i < 48 then (3 * i + 5) % 16
  else 7 * i % 16

/-- One of the 64 MD5 steps acting on the running `(a, b, c, d)` state. -/
def md5Step (M : List Nat) (st : Nat × Nat × Nat × Nat) (i : Nat) : Nat × Nat × Nat × Nat :=
  let a := st.1
  let b := st.2.1
  let c := st.2.2.1
  let d := st.2.2.2
  let f :=
    if i < 16 then md5F b c d
    else if i < 32 then md5G b c d
    else if i < 48 then md5H b c d
    else md5I b c d
  let tmp := u32 (f + a + md5K.getD i 0 + M.getD (md5Gidx i) 0)
  (d, u32 (b + rotl32 tmp (md5S.getD i 0)), b, c)

/-- Group a byte list into little-endian 32-bit words (4 bytes each). -/
def bytesToWords : List Nat → List Nat
  | b0 :: b1 :: b2 :: b3 :: rest =>
      (b0 + 256 * b1 + 65536 * b2 + 16777216 * b3) :: bytesToWords rest
  | _ => []

/-- Process one padded 64-byte chunk. -/
def md5Chunk (st : Nat × Nat × Nat × Nat) (chunk : List Nat) : Nat × Nat × Nat × Nat :=
  let M := bytesToWords chunk
  let r := (List.range 64).foldl (md5Step M) st
  (u32 (st.1 + r.1), u32 (st.2.1 + r.2.1), u32 (st.2.2.1 + r.2.2.1), u32 (st.2.2.2 + r.2.2.2))

/-- Little-endian byte expansion of a number. -/
def natToLE (n bytes : Nat) : List Nat := (List.range bytes).map fun i => n / 256 ^ i % 256

/-- MD5 padding: `0x80`, zeros to 56 mod 64, then the 64-bit little-endian bit length. -/
def md5Pad (msg : List Nat) : List Nat :=
  let len := msg.length
  let zeros := (120 - (len + 1) % 64) % 64
  msg ++ [128] ++ List.replicate zeros 0 ++ natToLE (len * 8 % 18446744073709551616) 8

/-- The 16 MD5 digest bytes of a byte message.  The padded message has length a
multiple of 64 and is consumed in 64-byte chunks. -/
def md5Bytes (msg : List Nat) : List Nat :=
  let padded := md5Pad msg
  let st := (List.range (padded.length / 64)).foldl
    (fun st i => md5Chunk st ((padded.drop (64 * i)).take 64))
    (1732584193, 4023233417, 2562383102, 271733878)
  natToLE st.1 4 ++ natToLE st.2.1 4 ++ natToLE st.2.2.1 4 ++ natToLE st.2.2.2 4

def hexDigit (n : Nat) : Char := if n < 10 then Char.ofNat (48 + n) else Char.ofNat (87 + n)

def byteHex (b : Nat) : List Char := [hexDigit (b / 16), hexDigit (b % 16)]

/-- `hashlib.md5(s.encode()).hexdigest()`. -/
def md5Hex (s : String) : String := String.mk ((md5Bytes (strUtf8 s)).flatMap byteHex)

/-! ## URL normalization

Models `VCNewsAnalyzer._normalize_url`:

```python
parsed = urlparse(url)
normalized = urlunparse((parsed.scheme, parsed.netloc, parsed.path, '', '', ''))
return normalized.rstrip('/')
```

following CPython 3.11's `urllib.parse` (`urlsplit`, `_splitparams`,
`_splitnetloc`, `urlunsplit`).  Strings are handled as `List Char`. -/

/-- `url.lstrip(_WHATWG_C0_CONTROL_OR_SPACE)` followed by removing
`_UNSAFE_URL_BYTES_TO_REMOVE` (tab, CR, LF), exactly as `urlsplit` does. -/
def sanitizeUrl (l : List Char) : List Char :=
  (l.dropWhile fun c => c.toNat ≤ 32).filter fun c => !(c = '\t' || c = '\r' || c = '\n')

/-- Membership in `scheme_chars` (ASCII letters, digits, `+`, `-`, `.`). -/
def isSchemeChar (c : Char) : Bool := c.isAlpha || c.isDigit || c = '+' || c = '-' || c = '.'

/-- Scan for `i = url.find(':')` with all of `url[:i]` in `scheme_chars`,
`i > 0`, and `url[0]` an ASCII letter; returns the scheme (pre-lowercase) and
the remainder, or `none` when no scheme is recognized. -/
def schemeSplitGo (acc : List Char) : List Char → Option (List Char × List Char)
  | [] => none
  | c :: rest =>
    if c = ':' then
      match acc with
      | [] => none
      | a :: _ => if a.isAlpha then some (acc, rest) else none
    else if isSchemeChar c then schemeSplitGo (acc ++ [c]) rest
    else none

/-- The scheme extraction of `urlsplit` (scheme lowercased). -/
def splitScheme (l : List Char) : List Char × List Char :=
  match schemeSplitGo [] l with
  | some (s, rest) => (s.map Char.toLower, rest)
  | none => ([], l)

def isNetlocDelim (c : Char) : Bool := c = '/' || c = '?' || c = '#'

/-- `_splitnetloc(url, 2)` on the part after the leading `//`: the netloc runs
to the first of `/`, `?`, `#`. -/
def splitNetloc (l : List Char) : List Char × List Char :=
  (l.takeWhile fun c => !isNetlocDelim c, l.dropWhile fun c => !isNetlocDelim c)

/-- `uses_params` from `urllib.parse` (note: `''` is a member). -/
def usesParams : List String :=
  ["", "ftp", "hdl", "prospero", "http", "imap", "https", "shttp", "rtsp", "rtsps",
   "rtspu", "sip", "sips", "mms", "sftp", "tel"]

/-- `uses_netloc` from `urllib.parse`. -/
def usesNetloc : List String :=
  ["", "ftp", "http", "gopher", "nntp", "telnet", "imap", "wais", "file", "mms",
   "https", "shttp", "snews", "prospero", "rtsp", "rtsps", "rtspu", "rsync", "svn",
   "svn+ssh", "sftp", "nfs", "git", "git+ssh", "ws", "wss"]

/-- Index of the last `/` in `p` (meaningful when `'/' ∈ p`): `url.rfind('/')`. -/
def rfindSlash (p : List Char) : Nat := p.length - 1 - p.reverse.findIdx (· = '/')

/-- `_splitparams(url)` keeping only the path part: splits `;params` off the
last path segment.  Callers guard with `';' in url`, mirrored here. -/
def splitParams (p : List Char) : List Char :=
  if p.contains ';' then
    if p.contains '/' then
      let j := rfindSlash p
      match ((p.drop j).findIdx? (· = ';')) with
      | some i => p.take (j + i)
      | none => p
    else p.take (p.findIdx (· = ';'))
  else p

/-- `urlunsplit((scheme, netloc, path, '', ''))` (CPython 3.11): re-adds `//`
when a netloc is present, or when the scheme uses a netloc and the path does
not already start with `//`. -/
def unsplit (scheme netloc p : List Char) : List Char :=
  let p1 :=
    if netloc ≠ [] ∨ (scheme ≠ [] ∧ String.mk scheme ∈ usesNetloc ∧ p.take 2 ≠ ['/', '/']) then
      let p' := if p ≠ [] ∧ p.head? ≠ some '/' then '/' :: p else p
      '/' :: '/' :: (netloc ++ p')
    else p
  if scheme ≠ [] then scheme ++ ':' :: p1 else p1

/-- `s.rstrip('/')`. -/
def rstripSlash (l : List Char) : List Char := (l.reverse.dropWhile (· = '/')).reverse

/-- The netloc step of `urlsplit`: a netloc is split off only when the
post-scheme remainder starts with `//`. -/
def netlocPart (r : List Char) : List Char × List Char :=
  if r.take 2 = ['/', '/'] then splitNetloc (r.drop 2) else ([], r)

/-- The path kept by `_normalize_url`: the post-netloc remainder up to the
first `#` (fragment split) and then up to the first `?` (query split), with
`;params` split off when the scheme uses params. -/
def pathPart (scheme r2 : List Char) : List Char :=
  let path0 := (r2.takeWhile (· ≠ '#')).takeWhile (· ≠ '?')
  if String.mk scheme ∈ usesParams then splitParams path0 else path0

/-- `urlparse` + `urlunparse((scheme, netloc, path, '', '', ''))` +
`rstrip('/')` on an already-sanitized URL. -/
def parseNormalize (l1 : List Char) : List Char :=
  let sr := splitScheme l1
  let nr := netlocPart sr.2
  rstripSlash (unsplit sr.1 nr.1 (pathPart sr.1 nr.2))

/-- `VCNewsAnalyzer._normalize_url` on character lists: sanitize, parse
(scheme, netloc, path — dropping fragment, query and, for `uses_params`
schemes, `;params`), reassemble with empty query/fragment, and strip trailing
slashes. -/
def normalizeChars (l : List Char) : List Char :=
  parseNormalize (sanitizeUrl l)

/-- `VCNewsAnalyzer._normalize_url`. -/
def normalize_url (s : String) : String := String.mk (normalizeChars s.data)

/-! ## Data model -/

/-- A parsed classifier verdict for one item (`analysis[item_key]`).  The
`is_opportunity` field is `none` when the JSON object lacks the key, matching
`item_analysis.get('is_opportunity', False)`. -/
structure Verdict where
  is_opportunity : Option Bool
  opportunity_type : String
  risk_level : String
  explanation : String
deriving DecidableEq

/-- The value stored in `item['ai_analysis']` when it is not `None`: either a
parsed verdict object, or the `{'explanation': response_text[:200]}` fallback
built on a JSON decode failure. -/
inductive AiAnalysis where
  | verdict (v : Verdict)
  | fallbackText (explanation : String)
deriving DecidableEq

/-- One news item as built by `_fetch_single_feed` (the `article` dict), with
the mutable analysis fields added later by `analyze_with_gemini`. -/
structure Item where
  source : String
  title : String
  link : String
  summary : String
  image_url : Option String
  published : String
  is_opportunity : Bool := false
  ai_analysis : Option AiAnalysis := none
deriving DecidableEq

/-- The immutable payload of an item (everything except the analysis fields),
used to state that a stage returns every input item. -/
def Item.core (it : Item) : String × String × String × String × Option String × String :=
  (it.source, it.title, it.link, it.summary, it.image_url, it.published)

/-! ## Fingerprint engine -/

/-- `VCNewsAnalyzer._generate_news_hash`: MD5 of `f"{title}|{link}"`. -/
def generate_news_hash (it : Item) : String := md5Hex (it.title ++ "|" ++ it.link)

/-- `VCNewsAnalyzer._generate_url_hash`: `None` for an empty link, otherwise
MD5 of the normalized link. -/
def generate_url_hash (it : Item) : Option String :=
  if it.link = "" then none else some (md5Hex (normalize_url it.link))

/-! ## History store

`self.sent_news_hashes` is a Python dict `{hash_hex: unix_timestamp}`;
timestamps (`time.time()` floats) are modelled as rationals.  The dict is
modelled as an association list with at-most-one entry per key, insertion
order preserved, assignment updating in place or appending. -/

abbrev HistoryStore := List (String × ℚ)

/-- `key in dict`. -/
def hasKey (s : HistoryStore) (k : String) : Bool := s.any fun p => p.1 = k

/-- `dict[k] = v`: overwrite the existing entry or append a new one. -/
def setKey (s : HistoryStore) (k : String) (v : ℚ) : HistoryStore :=
  if hasKey s k then s.map fun p => if p.1 = k then (k, v) else p
  else s ++ [(k, v)]

/-- What `_load_history` finds: the file may be absent, unreadable, fail to
parse as a `{str: number}` mapping (any exception inside the `try` block), or
yield a well-formed mapping. -/
inductive RawHistory where
  | missing
  | readError
  | badShape
  | mapping (entries : List (String × ℚ))

/-- `VCNewsAnalyzer._load_history` at load time `now`: a missing file and any
exception while reading/parsing yield `{}`; a well-formed mapping is filtered
to entries with `now - timestamp < 7*24*60*60`. -/
def load_history (raw : RawHistory) (now : ℚ) : HistoryStore :=
  match raw with
  | .missing => []
  | .readError => []
  | .badShape => []
  | .mapping entries => entries.filter fun e => now - e.2 < 7 * 24 * 60 * 60

/-! ## Duplicate filter -/

/-- `VCNewsAnalyzer._is_duplicate`: title+link hash present, or a derivable
URL hash present. -/
def is_duplicate (it : Item) (store : HistoryStore) : Bool :=
  if hasKey store (generate_news_hash it) then true
  else
    match generate_url_hash it with
    | some h => hasKey store h
    | none => false

/-- `VCNewsAnalyzer._mark_as_analyzed`: store the title+link hash, and the URL
hash when derivable, with timestamp `now` (the two `time.time()` calls inside
one invocation are modelled as the same instant). -/
def mark_as_analyzed (it : Item) (now : ℚ) (store : HistoryStore) : HistoryStore :=
  let s1 := setKey store (generate_news_hash it) now
  match generate_url_hash it with
  | some h => setKey s1 h now
  | none => s1

/-- `VCNewsAnalyzer.filter_duplicates`: the loop accumulating `new_items` and
`duplicate_count`.  The Python function returns only `new_items`; the count it
logs is returned here as the second component. -/
def filter_duplicates (items : List Item) (store : HistoryStore) : List Item × Nat :=
  items.foldl
    (fun acc it => if is_duplicate it store then (acc.1, acc.2 + 1) else (acc.1 ++ [it], acc.2))
    ([], 0)

/-! ## Retry wrapper (`retry_on_failure`) -/

/-- Outcome of a `retry_on_failure`-wrapped call, instrumented with the number
of invocations of the wrapped operation and the total `time.sleep` duration.
`result = .ok none` models the `return None` after a loop that never ran
(`max_retries = 0`); a raised final error is `.error e`. -/
structure RetryResult (E A : Type) where
  result : Except E (Option A)
  attempts : Nat
  sleepTotal : Nat

/-- The `while retries < max_retries` loop of `retry_on_failure`, with
`remaining = max_retries - retries`.  The operation is modelled as a function
of the attempt index (0-based).  After a failure the retry counter is bumped;
if it reaches `max_retries` the error is re-raised, otherwise the loop sleeps
`delay` and multiplies the delay by `backoff`. -/
def retryGo (op : Nat → Except E A) (backoff : Nat) :
    Nat → Nat → Nat → Nat → RetryResult E A
  | 0, attempts, slept, _ => ⟨.ok none, attempts, slept⟩
  | remaining + 1, attempts, slept, delay =>
    match op attempts with
    | .ok a => ⟨.ok (some a), attempts + 1, slept⟩
    | .error e =>
      if remaining = 0 then ⟨.error e, attempts + 1, slept⟩
      else retryGo op backoff remaining (attempts + 1) (slept + delay) (delay * backoff)

/-- `retry_on_failure(max_retries, delay, backoff)` applied to `op`. -/
def retry_on_failure (op : Nat → Except E A) (max_retries delay backoff : Nat) :
    RetryResult E A :=
  retryGo op backoff max_retries 0 0 delay

/-! ## Classifier adapter (`analyze_with_gemini`) -/

/-- How one batch's interaction with Gemini goes, as observed after the
markdown code-fence stripping: either some exception was raised inside the
outer `try` (`generate_content` or response handling), or a response text was
obtained which either fails `json.loads` (carrying the stripped text) or
parses to a JSON object of verdicts. -/
inductive GeminiOutcome where
  | raised
  | badJson (rawText : String)
  | goodJson (verdicts : List (String × Verdict))

/-- `f"item_{idx+1}"` for 0-based index `idx`. -/
def itemKey (idx : Nat) : String := "item_" ++ toString (idx + 1)

/-- Lookup in a parsed JSON object; with duplicate keys `json.loads` keeps the
last occurrence. -/
def jsonGet (vs : List (String × Verdict)) (k : String) : Option Verdict :=
  vs.reverse.lookup k

/-- The `for idx, item in enumerate(batch)` loop of the successful-parse
branch: a present `item_{idx+1}` key attaches the verdict and its
`is_opportunity` (defaulting to `False`); a missing key degrades the item. -/
def analyzeGoodGo (vs : List (String × Verdict)) : Nat → List Item → List Item
  | _, [] => []
  | idx, it :: rest =>
    (match jsonGet vs (itemKey idx) with
     | some v =>
       { it with ai_analysis := some (.verdict v),
                 is_opportunity := v.is_opportunity.getD false }
     | none => { it with ai_analysis := none, is_opportunity := false })
    :: analyzeGoodGo vs (idx + 1) rest

/-- Processing of one batch of (at most 5) items against one Gemini outcome:
an exception degrades every item (`ai_analysis = None`), an unparseable
response degrades every item with the truncated raw text as fallback
explanation, a parsed object is matched positionally. -/
def analyzeBatch (outcome : GeminiOutcome) (batch : List Item) : List Item :=
  match outcome with
  | .raised => batch.map fun it => { it with ai_analysis := none, is_opportunity := false }
  | .badJson raw =>
      batch.map fun it =>
        { it with ai_analysis := some (.fallbackText (raw.take 200)), is_opportunity := false }
  | .goodJson vs => analyzeGoodGo vs 0 batch

/-- `items[i:i+batch_size]` slicing with `batch_size = 5`. -/
def chunks5 : List Item → List (List Item)
  | [] => []
  | a :: b :: c :: d :: e :: f :: rest => [a, b, c, d, e] :: chunks5 (f :: rest)
  | l => [l]

/-- `VCNewsAnalyzer.analyze_with_gemini`: without an API key it returns `[]`;
otherwise each 5-item batch is processed against that batch's Gemini outcome
and the per-batch results are concatenated (`analyzed_items`). -/
def analyze_with_gemini (geminiKeySet : Bool) (responses : Nat → GeminiOutcome)
    (items : List Item) : List Item :=
  if !geminiKeySet then []
  else (((chunks5 items).enum).map fun bi => analyzeBatch (responses bi.1) bi.2).flatten

/-- `VCNewsAnalyzer.filter_opportunities`. -/
def filter_opportunities (items : List Item) : List Item :=
  items.filter fun it => it.is_opportunity

/-! ## Workflow orchestration (`run_workflow`) -/

/-- `VCNewsAnalyzer.fetch_rss_feeds`: each feed is fetched independently; a
source whose fetch raises contributes nothing, the others contribute their
article lists in source order. -/
def fetch_rss_feeds (results : List (Except Unit (List Item))) : List Item :=
  results.foldl
    (fun acc r => match r with | .ok arts => acc ++ arts | .error _ => acc) []

/-- `VCNewsAnalyzer.merge_sources`: concatenates the list-valued sources. -/
def merge_sources (sources : List (List Item)) : List Item :=
  sources.foldl (fun acc s => acc ++ s) []

/-- `VCNewsAnalyzer.send_to_telegram`: with missing credentials the items are
only printed; otherwise each item is attempted in turn, every per-item
exception being caught inside the loop.  The per-item delivery outcome
(success, or an exception swallowed by the `except` clause) is recorded; the
Python function returns `None`, so the log is for specification only. -/
def send_to_telegram (creds : Bool) (deliverOk : Item → Bool)
    (opportunities : List Item) : List (Item × Bool) :=
  if !creds then []
  else opportunities.map fun o => (o, deliverOk o)

/-- Environment of one `run_workflow` invocation: the wall clock, every
collaborator outcome, and the random draws. -/
structure WorkflowEnv where
  currentHour : Nat
  fetchResults : List (Except Unit (List Item))
  geminiKeySet : Bool
  geminiResponses : Nat → GeminiOutcome
  telegramCreds : Bool
  deliverOk : Item → Bool
  maxPosts : Nat
  samplePick : Nat → List Item → List Item
  now : ℚ

inductive RunOutcome where
  | quietSkip
  | noItems
  | allDuplicates
  | completed
deriving DecidableEq

/-- Observable result of one `run_workflow` invocation on a history store. -/
structure RunResult where
  store : HistoryStore
  persistCalls : Nat
  persistedContent : Option HistoryStore
  handedToDeliver : List Item
  deliveryLog : List (Item × Bool)
  outcome : RunOutcome
deriving DecidableEq

/-- Items collected by steps 1–2 (fetch + merge). -/
def collectedItems (env : WorkflowEnv) : List Item :=
  merge_sources [fetch_rss_feeds env.fetchResults]

/-- `VCNewsAnalyzer.run_workflow` acting on the in-memory history store.  The
quiet-hours guard returns before any stage; empty fetch results and an
all-duplicates filter return before analysis; otherwise the survivors are
analyzed, the opportunities sampled (`random.randint(1,3)` capped by the count
and drawn by `random.sample`, both supplied by the environment), handed to
`send_to_telegram`, each handed item is marked as analyzed, and the history is
saved exactly once.  `analyze_with_gemini` is wrapped by
`retry_on_failure(3, 10)` in the source; since the modelled call never raises,
the wrapper returns its value on the first attempt. -/
def run_workflow (env : WorkflowEnv) (store : HistoryStore) : RunResult :=
  if 22 ≤ env.currentHour ∨ env.currentHour < 7 then
    ⟨store, 0, none, [], [], .quietSkip⟩
  else
    let allItems := collectedItems env
    if allItems = [] then ⟨store, 0, none, [], [], .noItems⟩
    else
      let newItems := (filter_duplicates allItems store).1
      if newItems = [] then ⟨store, 0, none, [], [], .allDuplicates⟩
      else
        let analyzed := analyze_with_gemini env.geminiKeySet env.geminiResponses newItems
        let opportunities := filter_opportunities analyzed
        let selected :=
          if opportunities = [] then []
          else env.samplePick (min env.maxPosts opportunities.length) opportunities
        let log := send_to_telegram env.telegramCreds env.deliverOk selected
        let store' := selected.foldl (fun s it => mark_as_analyzed it env.now s) store
        ⟨store', 1, some store', selected, log, .completed⟩

/-! ## Store lemmas -/

theorem hasKey_setKey_self (s : HistoryStore) (k : String) (v : ℚ) :
    hasKey (setKey s k v) k = true := by
  unfold setKey
  split
  · next h =>
    unfold hasKey at h ⊢
    simp only [List.any_map, List.any_eq_true, Function.comp] at h ⊢
    obtain ⟨p, hp, hpk⟩ := h
    refine ⟨p, hp, ?_⟩
    simp [decide_eq_true_eq.mp hpk]
  · unfold hasKey
    simp

theorem hasKey_setKey_mono (s : HistoryStore) (k k' : String) (v : ℚ)
    (h : hasKey s k' = true) : hasKey (setKey s k v) k' = true := by
  unfold setKey
  split
  · unfold hasKey at h ⊢
    simp only [List.any_map, List.any_eq_true, Function.comp] at h ⊢
    obtain ⟨p, hp, hpk⟩ := h
    refine ⟨p, hp, ?_⟩
    by_cases hc : p.1 = k
    · simp only [hc, if_pos rfl]
      have : k = k' := hc ▸ decide_eq_true_eq.mp hpk
      simp [this]
    · simp [if_neg hc, hpk]
  · unfold hasKey at h ⊢
    simp [List.any_append, h]

theorem hasKey_mark_news (it : Item) (now : ℚ) (store : HistoryStore) :
    hasKey (mark_as_analyzed it now store) (generate_news_hash it) = true := by
  unfold mark_as_analyzed
  cases hu : generate_url_hash it with
  | none => exact hasKey_setKey_self ..
  | some h => exact hasKey_setKey_mono _ _ _ _ (hasKey_setKey_self ..)

theorem hasKey_mark_url (it : Item) (now : ℚ) (store : HistoryStore) (h : String)
    (hu : generate_url_hash it = some h) :
    hasKey (mark_as_analyzed it now store) h = true := by
  unfold mark_as_analyzed
  rw [hu]
  exact hasKey_setKey_self ..

theorem hasKey_mark_mono (it : Item) (now : ℚ) (store : HistoryStore) (k : String)
    (h : hasKey store k = true) : hasKey (mark_as_analyzed it now store) k = true := by
  unfold mark_as_analyzed
  cases hu : generate_url_hash it with
  | none => exact hasKey_setKey_mono _ _ _ _ h
  | some h' => exact hasKey_setKey_mono _ _ _ _ (hasKey_setKey_mono _ _ _ _ h)

theorem hasKey_foldl_mark_mono (l : List Item) (now : ℚ) (store : HistoryStore) (k : String)
    (h : hasKey store k = true) :
    hasKey (l.foldl (fun s it => mark_as_analyzed it now s) store) k = true := by
  induction l generalizing store with
  | nil => exact h
  | cons hd tl ih => exact ih _ (hasKey_mark_mono _ _ _ _ h)

theorem foldl_mark_covers (l : List Item) (now : ℚ) :
    ∀ (store : HistoryStore) (it : Item), it ∈ l →
    hasKey (l.foldl (fun s it => mark_as_analyzed it now s) store) (generate_news_hash it) = true
    ∧ ∀ h, generate_url_hash it = some h →
        hasKey (l.foldl (fun s it => mark_as_analyzed it now s) store) h = true := by
  induction l with
  | nil => intro store it hmem; cases hmem
  | cons hd tl ih =>
    intro store it hmem
    simp only [List.foldl_cons]
    rcases List.mem_cons.mp hmem with heq | htl
    · subst heq
      refine ⟨hasKey_foldl_mark_mono _ _ _ _ (hasKey_mark_news ..), fun h hu => ?_⟩
      exact hasKey_foldl_mark_mono _ _ _ _ (hasKey_mark_url _ _ _ _ hu)
    · exact ih _ it htl

/-! ## Duplicate-filter lemmas -/

theorem is_duplicate_false_of_absent (it : Item) (store : HistoryStore)
    (h1 : hasKey store (generate_news_hash it) = false)
    (h2 : ∀ h, generate_url_hash it = some h → hasKey store h = false) :
    is_duplicate it store = false := by
  unfold is_duplicate
  rw [h1]
  cases hu : generate_url_hash it with
  | none => simp
  | some h => simp [h2 h hu]

theorem is_duplicate_mark_self (it : Item) (now : ℚ) (store : HistoryStore) :
    is_duplicate it (mark_as_analyzed it now store) = true := by
  unfold is_duplicate
  rw [hasKey_mark_news]
  simp

theorem filter_duplicates_go (items : List Item) (store : HistoryStore)
    (acc : List Item) (n : Nat) :
    items.foldl
      (fun acc it => if is_duplicate it store then (acc.1, acc.2 + 1) else (acc.1 ++ [it], acc.2))
      (acc, n)
    = (acc ++ items.filter (fun it => !is_duplicate it store),
       n + (items.filter (fun it => is_duplicate it store)).length) := by
  induction items generalizing acc n with
  | nil => simp
  | cons hd tl ih =>
    by_cases h : is_duplicate hd store = true
    · simp [List.foldl_cons, h, ih]
      omega
    · simp only [Bool.not_eq_true] at h
      simp [List.foldl_cons, h, ih]

theorem filter_duplicates_spec (items : List Item) (store : HistoryStore) :
    filter_duplicates items store
    = (items.filter (fun it => !is_duplicate it store),
       (items.filter (fun it => is_duplicate it store)).length) := by
  unfold filter_duplicates
  simpa using filter_duplicates_go items store [] 0

theorem length_filter_add_length_filter_not (l : List Item) (p : Item → Bool) :
    (l.filter p).length + (l.filter fun a => !p a).length = l.length := by
  induction l with
  | nil => rfl
  | cons hd tl ih =>
    by_cases h : p hd = true
    · simp [h, ← ih]
      omega
    · simp only [Bool.not_eq_true] at h
      simp [h, ← ih]
      omega

/-! ## Claim theorems -/

/-- C1: round-trip of mark and lookup.  After `_mark_as_analyzed(item)` on any
store, `_is_duplicate(item)` is true; and on a store containing neither the
item's title+link hash nor its URL hash, `_is_duplicate(item)` is false. -/
theorem c1_mark_lookup_roundtrip :
    (∀ (it : Item) (now : ℚ) (store : HistoryStore),
        is_duplicate it (mark_as_analyzed it now store) = true) ∧
    (∀ (it : Item) (store : HistoryStore),
        hasKey store (generate_news_hash it) = false →
        (∀ h, generate_url_hash it = some h → hasKey store h = false) →
        is_duplicate it store = false) :=
  ⟨fun it now store => is_duplicate_mark_self it now store,
   fun it store h1 h2 => is_duplicate_false_of_absent it store h1 h2⟩

/-- Witness for C1 at a concrete item and the empty store. -/
theorem c1_mark_lookup_roundtrip_witness :
    is_duplicate ⟨"s", "A", "http://x.com/a", "", none, "", false, none⟩
      (mark_as_analyzed ⟨"s", "A", "http://x.com/a", "", none, "", false, none⟩ 5 []) = true
    ∧ is_duplicate ⟨"s", "A", "http://x.com/a", "", none, "", false, none⟩ [] = false :=
  ⟨c1_mark_lookup_roundtrip.1 _ 5 [],
   c1_mark_lookup_roundtrip.2 _ [] rfl (fun _ _ => rfl)⟩

/-- C5: history expiry at load.  An entry of the persisted mapping whose age
`now - ts` exceeds 7×24h is absent from the loaded store, and an entry
strictly younger than 7 days is retained. -/
theorem c5_history_expiry (entries : List (String × ℚ)) (now : ℚ) (k : String) (ts : ℚ) :
    ((k, ts) ∈ entries → 7 * 24 * 60 * 60 < now - ts →
        (k, ts) ∉ load_history (.mapping entries) now) ∧
    ((k, ts) ∈ entries → now - ts < 7 * 24 * 60 * 60 →
        (k, ts) ∈ load_history (.mapping entries) now) := by
  constructor
  · intro _ hold hmem
    rw [load_history, List.mem_filter] at hmem
    have := of_decide_eq_true hmem.2
    simp only at this
    linarith
  · intro hmem hyoung
    rw [load_history, List.mem_filter]
    exact ⟨hmem, by simpa using hyoung⟩

/-- Witness for C5: at load time 900000, the entry stamped 0 (older than
604800) is dropped and the entry stamped 900000 is retained. -/
theorem c5_history_expiry_witness :
    ("aa", (0 : ℚ)) ∉ load_history (.mapping [("aa", 0), ("bb", 900000)]) 900000
    ∧ ("bb", (900000 : ℚ)) ∈ load_history (.mapping [("aa", 0), ("bb", 900000)]) 900000 :=
  ⟨(c5_history_expiry [("aa", 0), ("bb", 900000)] 900000 "aa" 0).1
      (by norm_num) (by norm_num),
   (c5_history_expiry [("aa", 0), ("bb", 900000)] 900000 "bb" 900000).2
      (by norm_num) (by norm_num)⟩

/-- C6: resilient history load.  A missing file, a read error, or persisted
data of unexpected shape all load as the empty store; `load_history` is a
total function, so no error escapes to the caller. -/
theorem c6_resilient_load (now : ℚ) :
    load_history .missing now = [] ∧ load_history .readError now = []
    ∧ load_history .badShape now = [] :=
  ⟨rfl, rfl, rfl⟩

/-- C7: `filter_duplicates` keeps exactly the non-duplicates, in their
original relative order (the surviving list is the order-preserving filter of
the input and a sublist of it), and the logged duplicate count equals
`len(input) - len(output)`. -/
theorem c7_filter_partition (items : List Item) (store : HistoryStore) :
    (filter_duplicates items store).1 = items.filter (fun it => !is_duplicate it store)
    ∧ (filter_duplicates items store).1.Sublist items
    ∧ (filter_duplicates items store).2
        = items.length - (filter_duplicates items store).1.length := by
  rw [filter_duplicates_spec]
  refine ⟨rfl, List.filter_sublist items, ?_⟩
  have := length_filter_add_length_filter_not items (fun it => is_duplicate it store)
  simp only
  omega

/-- C9: quiet-hours frame property.  With the local hour in [22, 07), the run
returns immediately: no stage runs, the in-memory store is returned untouched,
nothing is persisted, nothing is delivered. -/
theorem c9_quiet_hours (env : WorkflowEnv) (store : HistoryStore)
    (h : 22 ≤ env.currentHour ∨ env.currentHour < 7) :
    run_workflow env store = ⟨store, 0, none, [], [], .quietSkip⟩ := by
  unfold run_workflow
  rw [if_pos h]

/-- Witness for C9 at hour 23, with collaborators that would deliver work if
consulted. -/
theorem c9_quiet_hours_witness :
    run_workflow
      ⟨23, [.ok [⟨"s", "A", "http://x.com/a", "", none, "", false, none⟩]], true,
       fun _ => .raised, true, fun _ => true, 2, fun _ l => l, 0⟩
      [("k", 1)]
    = ⟨[("k", 1)], 0, none, [], [], .quietSkip⟩ :=
  c9_quiet_hours _ _ (Or.inl (by norm_num))

/-- C10: within-run duplicates are not suppressed.  `filter_duplicates` reads
a fixed store and never marks, so two items of one input sharing a title+link
or a normalized URL, neither of which is recorded in the store, both survive. -/
theorem c10_within_run_not_suppressed (items : List Item) (store : HistoryStore)
    (a b : Item) (ha : a ∈ items) (hb : b ∈ items)
    (hrel : (a.title = b.title ∧ a.link = b.link)
            ∨ normalize_url a.link = normalize_url b.link)
    (hna : hasKey store (generate_news_hash a) = false)
    (hua : ∀ h, generate_url_hash a = some h → hasKey store h = false)
    (hnb : hasKey store (generate_news_hash b) = false)
    (hub : ∀ h, generate_url_hash b = some h → hasKey store h = false) :
    a ∈ (filter_duplicates items store).1 ∧ b ∈ (filter_duplicates items store).1 := by
  rw [filter_duplicates_spec]
  constructor
  · exact List.mem_filter.mpr ⟨ha, by simp [is_duplicate_false_of_absent a store hna hua]⟩
  · exact List.mem_filter.mpr ⟨hb, by simp [is_duplicate_false_of_absent b store hnb hub]⟩

/-- Witness for C10: two items sharing the normalized URL
`http://x.com/p` (one via a query string, one via a fragment) both survive
`filter_duplicates` on the empty store. -/
theorem c10_within_run_not_suppressed_witness :
    (⟨"s1", "A", "http://x.com/p?a=1", "", none, "", false, none⟩ : Item)
      ∈ (filter_duplicates
          [⟨"s1", "A", "http://x.com/p?a=1", "", none, "", false, none⟩,
           ⟨"s2", "B", "http://x.com/p#f", "", none, "", false, none⟩] []).1
    ∧ (⟨"s2", "B", "http://x.com/p#f", "", none, "", false, none⟩ : Item)
      ∈ (filter_duplicates
          [⟨"s1", "A", "http://x.com/p?a=1", "", none, "", false, none⟩,
           ⟨"s2", "B", "http://x.com/p#f", "", none, "", false, none⟩] []).1 :=
  c10_within_run_not_suppressed _ []
    ⟨"s1", "A", "http://x.com/p?a=1", "", none, "", false, none⟩
    ⟨"s2", "B", "http://x.com/p#f", "", none, "", false, none⟩
    (by decide) (by decide) (Or.inr (by decide)) rfl (fun _ _ => rfl) rfl (fun _ _ => rfl)

/-- One unfolding step of the `while retries < max_retries` loop. -/
theorem retryGo_succ (op : Nat → Except E A) (backoff remaining attempts slept delay : Nat) :
    retryGo op backoff (remaining + 1) attempts slept delay =
      match op attempts with
      | .ok a => ⟨.ok (some a), attempts + 1, slept⟩
      | .error e =>
        if remaining = 0 then ⟨.error e, attempts + 1, slept⟩
        else retryGo op backoff remaining (attempts + 1) (slept + delay) (delay * backoff) :=
  rfl

/-- C3: retry wrapper contract for `retry_on_failure(max_retries=3, delay=10,
backoff=2)`.  An operation failing on its first two invocations and
succeeding on the third is invoked exactly 3 times, with enforced sleeps
totalling 10 + 20 = 30, and the wrapper returns the success value; an
operation failing on every invocation is invoked exactly 3 times and the
wrapper re-raises the final error. -/
theorem c3_retry_contract (E A : Type) :
    (∀ (op : Nat → Except E A) (e₀ e₁ : E) (a : A),
        op 0 = .error e₀ → op 1 = .error e₁ → op 2 = .ok a →
        retry_on_failure op 3 10 2 = ⟨.ok (some a), 3, 30⟩)
    ∧ (∀ (op : Nat → Except E A) (e : Nat → E),
        (∀ i, i < 3 → op i = .error (e i)) →
        retry_on_failure op 3 10 2 = ⟨.error (e 2), 3, 30⟩) := by
  constructor
  · intro op e₀ e₁ a h0 h1 h2
    show retryGo op 2 (2 + 1) 0 0 10 = ⟨.ok (some a), 3, 30⟩
    rw [retryGo_succ, h0]
    show retryGo op 2 (1 + 1) 1 10 20 = ⟨.ok (some a), 3, 30⟩
    rw [retryGo_succ, h1]
    show retryGo op 2 (0 + 1) 2 30 40 = ⟨.ok (some a), 3, 30⟩
    rw [retryGo_succ, h2]
  · intro op e h
    have h0 := h 0 (by omega)
    have h1 := h 1 (by omega)
    have h2 := h 2 (by omega)
    show retryGo op 2 (2 + 1) 0 0 10 = ⟨.error (e 2), 3, 30⟩
    rw [retryGo_succ, h0]
    show retryGo op 2 (1 + 1) 1 10 20 = ⟨.error (e 2), 3, 30⟩
    rw [retryGo_succ, h1]
    show retryGo op 2 (0 + 1) 2 30 40 = ⟨.error (e 2), 3, 30⟩
    rw [retryGo_succ, h2]
    rfl

/-- Witness for C3: a fail-fail-succeed operation and an always-failing
operation, run through `retry_on_failure(3, 10, 2)`. -/
theorem c3_retry_contract_witness :
    retry_on_failure (fun i => if i < 2 then Except.error i else Except.ok 42) 3 10 2
      = ⟨.ok (some 42), 3, 30⟩
    ∧ retry_on_failure (fun i => (Except.error i : Except Nat Nat)) 3 10 2
      = ⟨.error 2, 3, 30⟩ :=
  ⟨(c3_retry_contract Nat Nat).1 _ 0 1 42 rfl rfl rfl,
   (c3_retry_contract Nat Nat).2 _ (fun i => i) (fun _ _ => rfl)⟩

/-- C2: mark-on-attempt at RECORD-HISTORY.  On any run that reaches the
delivery stage (not quiet hours, some items fetched, not all duplicates),
every item handed to `send_to_telegram` has both its fingerprints recorded in
the final store, the history is persisted exactly once (with the final store's
content), the run completes — and all of this is independent of the per-item
delivery outcomes, which are caught inside the delivery loop. -/
theorem c2_record_history_mark_on_attempt (env : WorkflowEnv) (store : HistoryStore)
    (hq : ¬(22 ≤ env.currentHour ∨ env.currentHour < 7))
    (hitems : collectedItems env ≠ [])
    (hnew : (filter_duplicates (collectedItems env) store).1 ≠ []) :
    (run_workflow env store).outcome = .completed
    ∧ (run_workflow env store).persistCalls = 1
    ∧ (run_workflow env store).persistedContent = some (run_workflow env store).store
    ∧ (run_workflow env store).store
        = (run_workflow env store).handedToDeliver.foldl
            (fun s it => mark_as_analyzed it env.now s) store
    ∧ (∀ it ∈ (run_workflow env store).handedToDeliver,
        hasKey (run_workflow env store).store (generate_news_hash it) = true
        ∧ ∀ h, generate_url_hash it = some h →
            hasKey (run_workflow env store).store h = true)
    ∧ ∀ f : Item → Bool,
        (run_workflow { env with deliverOk := f } store).store = (run_workflow env store).store
        ∧ (run_workflow { env with deliverOk := f } store).handedToDeliver
            = (run_workflow env store).handedToDeliver
        ∧ (run_workflow { env with deliverOk := f } store).persistCalls = 1
        ∧ (run_workflow { env with deliverOk := f } store).outcome = .completed := by
  have hrun : ∀ g : Item → Bool,
      run_workflow { env with deliverOk := g } store =
        (let opportunities := filter_opportunities
          (analyze_with_gemini env.geminiKeySet env.geminiResponses
            (filter_duplicates (collectedItems env) store).1)
         let selected := if opportunities = [] then []
           else env.samplePick (min env.maxPosts opportunities.length) opportunities
         ⟨selected.foldl (fun s it => mark_as_analyzed it env.now s) store, 1,
          some (selected.foldl (fun s it => mark_as_analyzed it env.now s) store),
          selected, send_to_telegram env.telegramCreds g selected, .completed⟩) := by
    intro g
    show run_workflow ⟨env.currentHour, env.fetchResults, env.geminiKeySet,
      env.geminiResponses, env.telegramCreds, g, env.maxPosts, env.samplePick, env.now⟩
        store = _
    unfold run_workflow
    dsimp only
    have hc : collectedItems ⟨env.currentHour, env.fetchResults, env.geminiKeySet,
        env.geminiResponses, env.telegramCreds, g, env.maxPosts, env.samplePick, env.now⟩
        = collectedItems env := rfl
    rw [hc, if_neg hq, if_neg hitems, if_neg hnew]
  have henv : ({ env with deliverOk := env.deliverOk } : WorkflowEnv) = env := rfl
  have hrunEnv := hrun env.deliverOk
  rw [henv] at hrunEnv
  refine ⟨by rw [hrunEnv], by rw [hrunEnv], by rw [hrunEnv], by rw [hrunEnv], ?_, ?_⟩
  · intro it hmem
    rw [hrunEnv] at hmem ⊢
    exact foldl_mark_covers _ env.now store it hmem
  · intro f
    rw [hrun f, hrunEnv]
    exact ⟨rfl, rfl, rfl, rfl⟩

set_option maxRecDepth 40000 in
/-- Witness for C2: a noon run over one fetched item on an empty store — it
completes, persisting once. -/
theorem c2_record_history_mark_on_attempt_witness :
    (run_workflow
      ⟨12, [.ok [⟨"s", "A", "http://x.com/a", "", none, "", false, none⟩]], false,
       fun _ => .raised, false, fun _ => true, 2, fun _ l => l, 5⟩ []).outcome = .completed
    ∧ (run_workflow
      ⟨12, [.ok [⟨"s", "A", "http://x.com/a", "", none, "", false, none⟩]], false,
       fun _ => .raised, false, fun _ => true, 2, fun _ l => l, 5⟩ []).persistCalls = 1 :=
  ⟨(c2_record_history_mark_on_attempt _ [] (by decide) (by decide) (by decide)).1,
   (c2_record_history_mark_on_attempt _ [] (by decide) (by decide) (by decide)).2.1⟩

/-! ## Classifier-adapter lemmas -/

theorem analyzeGoodGo_map_core (vs : List (String × Verdict)) :
    ∀ (idx : Nat) (batch : List Item),
      (analyzeGoodGo vs idx batch).map Item.core = batch.map Item.core := by
  intro idx batch
  induction batch generalizing idx with
  | nil => rfl
  | cons hd tl ih =>
    simp only [analyzeGoodGo, List.map_cons]
    cases jsonGet vs (itemKey idx) <;> simp [Item.core, ih]

theorem analyzeBatch_map_core (o : GeminiOutcome) (batch : List Item) :
    (analyzeBatch o batch).map Item.core = batch.map Item.core := by
  cases o with
  | raised => simp [analyzeBatch, List.map_map, Item.core, Function.comp]
  | badJson raw => simp [analyzeBatch, List.map_map, Item.core, Function.comp]
  | goodJson vs => exact analyzeGoodGo_map_core vs 0 batch

theorem chunks5_flatten : (l : List Item) → (chunks5 l).flatten = l
  | [] => rfl
  | [_] => rfl
  | [_, _] => rfl
  | [_, _, _] => rfl
  | [_, _, _, _] => rfl
  | [_, _, _, _, _] => rfl
  | a :: b :: c :: d :: e :: f :: rest => by
    have ih := chunks5_flatten (f :: rest)
    simp [chunks5, ih]

theorem analyze_map_core (rs : Nat → GeminiOutcome) (items : List Item) :
    (analyze_with_gemini true rs items).map Item.core = items.map Item.core := by
  unfold analyze_with_gemini
  simp only [Bool.not_true, Bool.false_eq_true, if_false]
  rw [List.map_flatten, List.map_map]
  have h1 : List.map (List.map Item.core ∘ fun bi => analyzeBatch (rs bi.1) bi.2)
      (chunks5 items).enum
      = List.map (List.map Item.core ∘ Prod.snd) (chunks5 items).enum := by
    refine List.map_congr_left fun bi _ => ?_
    exact analyzeBatch_map_core (rs bi.1) bi.2
  rw [h1]
  rw [show List.map Item.core ∘ Prod.snd
        = (fun l : List Item => l.map Item.core) ∘ Prod.snd from rfl]
  rw [← List.map_map (fun l : List Item => l.map Item.core) Prod.snd,
    List.enum_map_snd, ← List.map_flatten, chunks5_flatten]

theorem analyzeGoodGo_missing_key (vs : List (String × Verdict)) :
    ∀ (batch : List Item) (idx j : Nat) (it' : Item),
      (analyzeGoodGo vs idx batch)[j]? = some it' →
      jsonGet vs (itemKey (idx + j)) = none →
      it'.is_opportunity = false ∧ it'.ai_analysis = none := by
  intro batch
  induction batch with
  | nil => intro idx j it' h _; simp [analyzeGoodGo] at h
  | cons hd tl ih =>
    intro idx j it' h hk
    cases j with
    | zero =>
      rw [Nat.add_zero] at hk
      simp only [analyzeGoodGo, List.getElem?_cons_zero, hk, Option.some.injEq] at h
      rw [← h]
      exact ⟨rfl, rfl⟩
    | succ j' =>
      simp only [analyzeGoodGo, List.getElem?_cons_succ] at h
      have hk' : jsonGet vs (itemKey (idx + 1 + j')) = none := by
        have : idx + 1 + j' = idx + (j' + 1) := by omega
        rw [this]
        exact hk
      exact ih (idx + 1) j' it' h hk'

/-- C8: classifier degradation.  The adapter's output lists every input item
(with its immutable payload intact, in order).  An unparseable batch response
degrades every item of that batch to non-opportunity with the truncated raw
text as fallback explanation; a parsed response missing the key for an item's
position degrades that item to non-opportunity with no analysis attached.
Every function involved is total, so no error is raised. -/
theorem c8_classifier_degradation (responses : Nat → GeminiOutcome) (items : List Item) :
    (analyze_with_gemini true responses items).map Item.core = items.map Item.core
    ∧ (∀ (o : GeminiOutcome) (batch : List Item),
        (analyzeBatch o batch).map Item.core = batch.map Item.core)
    ∧ (∀ (raw : String) (batch : List Item) (it' : Item),
        it' ∈ analyzeBatch (.badJson raw) batch →
        it'.is_opportunity = false
        ∧ it'.ai_analysis = some (.fallbackText (raw.take 200)))
    ∧ (∀ (vs : List (String × Verdict)) (batch : List Item) (j : Nat) (it' : Item),
        (analyzeBatch (.goodJson vs) batch)[j]? = some it' →
        jsonGet vs (itemKey j) = none →
        it'.is_opportunity = false ∧ it'.ai_analysis = none) := by
  refine ⟨analyze_map_core responses items, analyzeBatch_map_core, ?_, ?_⟩
  · intro raw batch it' hmem
    obtain ⟨it, _, heq⟩ := List.mem_map.mp hmem
    rw [← heq]
    exact ⟨rfl, rfl⟩
  · intro vs batch j it' h hk
    exact analyzeGoodGo_missing_key vs batch 0 j it' h (by simpa using hk)

set_option maxRecDepth 40000 in
/-- Witness for C8 (end-to-end scenario 2): a 3-item batch whose parsed
response misses `item_3` leaves item 3 non-opportunity with no analysis; and
an unparseable response degrades an item with the raw text as fallback. -/
theorem c8_classifier_degradation_witness :
    ((⟨"s", "C", "http://x.com/c", "", none, "", false, none⟩ : Item).is_opportunity = false
      ∧ (⟨"s", "C", "http://x.com/c", "", none, "", false, none⟩ : Item).ai_analysis = none)
    ∧ ((⟨"s", "A", "http://x.com/a", "", none, "", false,
          some (.fallbackText "oops")⟩ : Item).is_opportunity = false
      ∧ (⟨"s", "A", "http://x.com/a", "", none, "", false,
          some (.fallbackText "oops")⟩ : Item).ai_analysis
            = some (.fallbackText ((String.take "oops" 200)))) :=
  ⟨(c8_classifier_degradation (fun _ => .raised) []).2.2.2
      [("item_1", ⟨some true, "f", "LOW", "e"⟩), ("item_2", ⟨some false, "f", "LOW", "e"⟩)]
      [⟨"s", "A", "http://x.com/a", "", none, "", false, none⟩,
       ⟨"s", "B", "http://x.com/b", "", none, "", false, none⟩,
       ⟨"s", "C", "http://x.com/c", "", none, "", false, none⟩]
      2 _ (by decide) (by decide),
   (c8_classifier_degradation (fun _ => .raised) []).2.2.1 "oops"
      [⟨"s", "A", "http://x.com/a", "", none, "", false, none⟩] _ (by decide)⟩

/-! ## URL-normalization lemmas (towards C4)

The normalization equivalence of the spec is settled through a decomposition
of a link into a clean base (no `#`, `?`, `;`), trailing slashes, and a
query/fragment suffix.  The lemmas below track that decomposition through each
stage of `_normalize_url`. -/

/-- A query/fragment suffix: empty, or starting with `#` or `?`. -/
def QfSuffix (t : List Char) : Prop :=
  t = [] ∨ t.head? = some '#' ∨ t.head? = some '?'

theorem dropWhile_append_all {α : Type} {p : α → Bool} {a : List α}
    (h : ∀ c ∈ a, p c = true) (b : List α) :
    (a ++ b).dropWhile p = b.dropWhile p := by
  induction a with
  | nil => rfl
  | cons hd tl ih =>
    simp only [List.cons_append, List.dropWhile_cons, h hd (by simp)]
    exact ih fun c hc => h c (by simp [hc])

theorem takeWhile_append_all {α : Type} {p : α → Bool} {a : List α}
    (h : ∀ c ∈ a, p c = true) (b : List α) :
    (a ++ b).takeWhile p = a ++ b.takeWhile p := by
  induction a with
  | nil => rfl
  | cons hd tl ih =>
    simp only [List.cons_append, List.takeWhile_cons, h hd (by simp), if_true]
    rw [ih fun c hc => h c (by simp [hc])]

theorem takeWhile_eq_self {α : Type} {p : α → Bool} {l : List α}
    (h : ∀ c ∈ l, p c = true) : l.takeWhile p = l :=
  List.takeWhile_eq_self_iff.mpr h

theorem dropWhile_eq_self_of_head {α : Type} {p : α → Bool} {l : List α}
    (h : ∀ c, l.head? = some c → p c = false) : l.dropWhile p = l := by
  cases l with
  | nil => rfl
  | cons hd tl => simp [List.dropWhile_cons, h hd rfl]

theorem takeWhile_append_head_false {α : Type} {p : α → Bool} {a : List α}
    (ha : ∀ x ∈ a, p x = true) {c : α} (hc : p c = false) (r : List α) :
    (a ++ c :: r).takeWhile p = a := by
  rw [takeWhile_append_all ha]
  simp [List.takeWhile_cons, hc]

theorem dropWhile_append_split {α : Type} [DecidableEq α] (p : α → Bool) (a b : List α) :
    (a ++ b).dropWhile p
      = if a.dropWhile p = [] then b.dropWhile p else a.dropWhile p ++ b := by
  induction a with
  | nil => simp
  | cons hd tl ih =>
    by_cases h : p hd = true
    · simpa [List.dropWhile_cons, h] using ih
    · simp [List.dropWhile_cons, h]

/-! ### `rstripSlash` -/

theorem rstripSlash_append_replicate (x : List Char) (k : Nat) :
    rstripSlash (x ++ List.replicate k '/') = rstripSlash x := by
  unfold rstripSlash
  rw [List.reverse_append, List.reverse_replicate,
    dropWhile_append_all fun c hc => by simp [List.eq_of_mem_replicate hc]]

theorem rstripSlash_eq_self {l : List Char} (h : ∀ c, l.getLast? = some c → c ≠ '/') :
    rstripSlash l = l := by
  unfold rstripSlash
  rw [dropWhile_eq_self_of_head, List.reverse_reverse]
  intro c hc
  rw [List.head?_reverse] at hc
  simp [h c hc]

theorem rstripSlash_scheme_slashes (s : List Char) (j : Nat) :
    rstripSlash (s ++ ':' :: List.replicate j '/') = s ++ [':'] := by
  rw [List.append_cons, rstripSlash_append_replicate]
  exact rstripSlash_eq_self fun c hc => by
    rw [List.getLast?_concat] at hc
    cases hc
    decide

theorem rstripSlash_replicate (j : Nat) : rstripSlash (List.replicate j '/') = [] := by
  have := rstripSlash_append_replicate [] j
  simpa using this

theorem rstripSlash_decomp (l : List Char) :
    ∃ m, l = rstripSlash l ++ List.replicate m '/' := by
  refine ⟨(l.reverse.takeWhile (· = '/')).length, ?_⟩
  have hrep : l.reverse.takeWhile (· = '/')
      = List.replicate (l.reverse.takeWhile (· = '/')).length '/' :=
    List.eq_replicate_of_mem fun b hb => by
      have := List.mem_takeWhile_imp hb
      simpa using this
  conv_lhs => rw [← l.reverse_reverse,
    ← List.takeWhile_append_dropWhile (fun c => decide (c = '/')) l.reverse]
  rw [List.reverse_append, rstripSlash]
  congr 1
  rw [hrep, List.reverse_replicate, List.length_replicate]

theorem rstripSlash_getLast (l : List Char) :
    ∀ c, (rstripSlash l).getLast? = some c → c ≠ '/' := by
  intro c hc
  unfold rstripSlash at hc
  rw [List.getLast?_reverse] at hc
  have h := List.head?_dropWhile_not (fun c => decide (c = '/')) l.reverse
  rw [hc] at h
  simpa using h

theorem mem_rstripSlash {l : List Char} {c : Char} (h : c ∈ rstripSlash l) : c ∈ l := by
  unfold rstripSlash at h
  rw [List.mem_reverse] at h
  have := (@List.dropWhile_sublist Char l.reverse (fun c => decide (c = '/'))).mem h
  rwa [List.mem_reverse] at this

/-! ### `sanitizeUrl` -/

theorem mem_sanitizeUrl {l : List Char} {c : Char} (h : c ∈ sanitizeUrl l) : c ∈ l := by
  unfold sanitizeUrl at h
  have h1 := List.mem_filter.mp h
  exact (List.dropWhile_sublist _).mem h1.1

theorem filter_qfSuffix {t : List Char} (ht : QfSuffix t) :
    QfSuffix (t.filter fun c => !(c = '\t' || c = '\r' || c = '\n')) := by
  rcases ht with rfl | h | h
  · exact Or.inl rfl
  · cases t with
    | nil => exact Or.inl rfl
    | cons hd tl =>
      cases h
      refine Or.inr (Or.inl ?_)
      simp [List.filter_cons]
  · cases t with
    | nil => exact Or.inl rfl
    | cons hd tl =>
      cases h
      refine Or.inr (Or.inr ?_)
      simp [List.filter_cons]

theorem sanitizeUrl_decomp (base : List Char) (k : Nat) (t : List Char) (ht : QfSuffix t) :
    sanitizeUrl (base ++ List.replicate k '/' ++ t)
      = sanitizeUrl base ++ List.replicate k '/'
        ++ t.filter (fun c => !(c = '\t' || c = '\r' || c = '\n')) := by
  have hu : ∀ c, (List.replicate k '/' ++ t).head? = some c →
      decide (c.toNat ≤ 32) = false := by
    intro c hc
    cases k with
    | zero =>
      simp only [List.replicate, List.nil_append] at hc
      rcases ht with rfl | h | h
      · cases hc
      · rw [hc] at h; cases h; decide
      · rw [hc] at h; cases h; decide
    | succ k' =>
      simp only [List.replicate_succ, List.cons_append, List.head?_cons,
        Option.some.injEq] at hc
      subst hc
      decide
  have hfrep : (List.replicate k '/').filter (fun c => !(c = '\t' || c = '\r' || c = '\n'))
      = List.replicate k '/' :=
    List.filter_eq_self.mpr fun c hc => by simp [List.eq_of_mem_replicate hc]
  unfold sanitizeUrl
  rw [List.append_assoc, dropWhile_append_split]
  split
  · next hbase =>
    rw [dropWhile_eq_self_of_head hu, List.filter_append, hfrep, hbase]
    simp
  · rw [List.append_assoc, List.filter_append, List.filter_append, hfrep]

/-! ### Scheme split -/

theorem schemeSplitGo_append (u : List Char)
    (hu : ∀ c, u.head? = some c → isSchemeChar c = false ∧ c ≠ ':') :
    ∀ (x acc : List Char),
      schemeSplitGo acc (x ++ u)
        = match schemeSplitGo acc x with
          | some sr => some (sr.1, sr.2 ++ u)
          | none => none := by
  intro x
  induction x with
  | nil =>
    intro acc
    cases u with
    | nil => simp [schemeSplitGo]
    | cons c r =>
      obtain ⟨h1, h2⟩ := hu c rfl
      simp [schemeSplitGo, h1, h2]
  | cons c xs ih =>
    intro acc
    by_cases hc : c = ':'
    · subst hc
      cases acc with
      | nil => simp [schemeSplitGo]
      | cons a as =>
        by_cases ha : a.isAlpha
        · simp [schemeSplitGo, ha]
        · simp [schemeSplitGo, ha]
    · by_cases hs : isSchemeChar c = true
      · simp [schemeSplitGo, hc, hs, ih]
      · simp [schemeSplitGo, hc, hs]

theorem splitScheme_append (x u : List Char)
    (hu : ∀ c, u.head? = some c → isSchemeChar c = false ∧ c ≠ ':') :
    splitScheme (x ++ u) = ((splitScheme x).1, (splitScheme x).2 ++ u) := by
  unfold splitScheme
  rw [schemeSplitGo_append u hu x []]
  cases h : schemeSplitGo [] x with
  | none => simp
  | some sr => simp

theorem schemeSplitGo_suffix :
    ∀ (x acc : List Char) (sr : List Char × List Char),
      schemeSplitGo acc x = some sr → ∃ pre, x = pre ++ sr.2 := by
  intro x
  induction x with
  | nil => intro acc sr h; simp [schemeSplitGo] at h
  | cons c xs ih =>
    intro acc sr h
    obtain ⟨s1, s2⟩ := sr
    by_cases hc : c = ':'
    · subst hc
      cases acc with
      | nil => simp [schemeSplitGo] at h
      | cons a as =>
        by_cases ha : a.isAlpha
        · simp [schemeSplitGo, ha] at h
          refine ⟨[':'], ?_⟩
          rw [← h.2]
          rfl
        · simp [schemeSplitGo, ha] at h
    · by_cases hs : isSchemeChar c = true
      · simp only [schemeSplitGo, if_neg hc, if_pos hs] at h
        obtain ⟨pre, hpre⟩ := ih (acc ++ [c]) (s1, s2) h
        refine ⟨c :: pre, ?_⟩
        rw [List.cons_append, ← hpre]
      · simp [schemeSplitGo, hc, hs] at h

theorem splitScheme_suffix (x : List Char) : ∃ pre, x = pre ++ (splitScheme x).2 := by
  unfold splitScheme
  cases h : schemeSplitGo [] x with
  | none => exact ⟨[], rfl⟩
  | some sr =>
    obtain ⟨pre, hpre⟩ := schemeSplitGo_suffix x [] sr h
    exact ⟨pre, hpre⟩

theorem repQf_head {k : Nat} {t' : List Char} (ht' : QfSuffix t') :
    ∀ c, (List.replicate k '/' ++ t').head? = some c → isSchemeChar c = false ∧ c ≠ ':' := by
  intro c hc
  cases k with
  | zero =>
    simp only [List.replicate, List.nil_append] at hc
    rcases ht' with rfl | h | h
    · cases hc
    · rw [hc] at h
      cases h
      exact ⟨by decide, by decide⟩
    · rw [hc] at h
      cases h
      exact ⟨by decide, by decide⟩
  | succ k' =>
    simp only [List.replicate_succ, List.cons_append, List.head?_cons,
      Option.some.injEq] at hc
    subst hc
    exact ⟨by decide, by decide⟩

/-! ### Netloc split -/

theorem takeWhile_eq_nil_of_head {α : Type} {p : α → Bool} {l : List α}
    (h : ∀ c, l.head? = some c → p c = false) : l.takeWhile p = [] := by
  cases l with
  | nil => rfl
  | cons hd tl => simp [List.takeWhile_cons, h hd rfl]

theorem repQf_head_delim {k : Nat} {t' : List Char} (ht' : QfSuffix t') :
    ∀ c, (List.replicate k '/' ++ t').head? = some c → isNetlocDelim c = true := by
  intro c hc
  cases k with
  | zero =>
    simp only [List.replicate, List.nil_append] at hc
    rcases ht' with rfl | h | h
    · cases hc
    · rw [hc] at h; cases h; decide
    · rw [hc] at h; cases h; decide
  | succ k' =>
    simp only [List.replicate_succ, List.cons_append, List.head?_cons,
      Option.some.injEq] at hc
    subst hc
    decide

theorem netlocPart_append (cr : List Char) (k : Nat) (t' : List Char)
    (hhash : '#' ∉ cr) (hq : '?' ∉ cr)
    (hlast : ∀ c, cr.getLast? = some c → c ≠ '/')
    (ht' : QfSuffix t') :
    (netlocPart (cr ++ (List.replicate k '/' ++ t'))).1 = (netlocPart cr).1
    ∧ ∃ m, (netlocPart (cr ++ (List.replicate k '/' ++ t'))).2
        = (netlocPart cr).2 ++ (List.replicate m '/' ++ t') := by
  have hundel : ∀ {j : Nat}, ∀ c, (List.replicate j '/' ++ t').head? = some c →
      (fun c => !isNetlocDelim c) c = false := by
    intro j c hc
    simp [repQf_head_delim ht' c hc]
  have hnd_nil : ∀ (z : List Char),
      (∀ c, z.head? = some c → (fun c => !isNetlocDelim c) c = false) →
      splitNetloc z = ([], z) := by
    intro z hz
    unfold splitNetloc
    rw [takeWhile_eq_nil_of_head hz, dropWhile_eq_self_of_head hz]
  by_cases h2 : cr.take 2 = ['/', '/']
  · obtain ⟨cr2, rfl⟩ : ∃ cr2, cr = '/' :: '/' :: cr2 := by
      cases cr with
      | nil => cases h2
      | cons a cr1 =>
        cases cr1 with
        | nil => simp at h2
        | cons b cr2 =>
          simp only [List.take_succ_cons, List.take_zero] at h2
          simp only [List.cons.injEq, and_true] at h2
          obtain ⟨rfl, rfl, -⟩ := h2
          exact ⟨cr2, rfl⟩
    have hl : netlocPart (('/' :: '/' :: cr2) ++ (List.replicate k '/' ++ t'))
        = splitNetloc (cr2 ++ (List.replicate k '/' ++ t')) := by
      simp [netlocPart]
    have hcr : netlocPart ('/' :: '/' :: cr2) = splitNetloc cr2 := by
      simp [netlocPart]
    rw [hl, hcr]
    unfold splitNetloc
    by_cases hr : cr2.dropWhile (fun c => !isNetlocDelim c) = []
    · have hall : ∀ c ∈ cr2, (fun c => !isNetlocDelim c) c = true :=
        List.dropWhile_eq_nil_iff.mp hr
      constructor
      · rw [takeWhile_append_all hall, takeWhile_eq_self hall,
          takeWhile_eq_nil_of_head hundel, List.append_nil]
      · refine ⟨k, ?_⟩
        rw [dropWhile_append_all hall, hr, dropWhile_eq_self_of_head hundel]
        simp
    · have hsplit := List.takeWhile_append_dropWhile
        (p := fun c => !isNetlocDelim c) cr2
      have hallTake : ∀ c ∈ cr2.takeWhile (fun c => !isNetlocDelim c),
          (fun c => !isNetlocDelim c) c = true := by
        intro c hc
        exact @List.mem_takeWhile_imp Char (fun c => !isNetlocDelim c) cr2 c hc
      obtain ⟨rc, rr, hrr⟩ : ∃ rc rr,
          cr2.dropWhile (fun c => !isNetlocDelim c) = rc :: rr := by
        cases hrc : cr2.dropWhile (fun c => !isNetlocDelim c) with
        | nil => exact absurd hrc hr
        | cons rc rr => exact ⟨rc, rr, rfl⟩
      have hrchead : (fun c => !isNetlocDelim c) rc = false := by
        have h := List.head?_dropWhile_not (fun c => !isNetlocDelim c) cr2
        rw [hrr] at h
        simpa using h
      constructor
      · conv_lhs => rw [← hsplit, List.append_assoc]
        rw [takeWhile_append_all hallTake]
        conv_rhs => rw [← hsplit]
        rw [takeWhile_append_all hallTake, hrr]
        simp [List.takeWhile_cons, hrchead]
      · refine ⟨k, ?_⟩
        conv_lhs => rw [← hsplit, List.append_assoc]
        rw [dropWhile_append_all hallTake]
        conv_rhs => rw [← hsplit]
        rw [dropWhile_append_all hallTake, hrr, List.cons_append,
          dropWhile_eq_self_of_head (by
            intro c hc
            rw [List.head?_cons] at hc
            cases hc
            exact hrchead)]
        rw [List.dropWhile_cons]
        simp [hrchead]
  · cases cr with
    | nil =>
      have hnil : netlocPart ([] : List Char) = ([], []) := by simp [netlocPart]
      rw [List.nil_append, hnil]
      cases k with
      | zero =>
        have ht2 : netlocPart t' = ([], t') := by
          rcases ht' with rfl | h | h
          · simp [netlocPart]
          · obtain ⟨r, rfl⟩ : ∃ r, t' = '#' :: r := by
              cases t' with
              | nil => cases h
              | cons a r => cases h; exact ⟨r, rfl⟩
            simp [netlocPart, List.take_succ_cons]
          · obtain ⟨r, rfl⟩ : ∃ r, t' = '?' :: r := by
              cases t' with
              | nil => cases h
              | cons a r => cases h; exact ⟨r, rfl⟩
            simp [netlocPart, List.take_succ_cons]
        rw [show List.replicate 0 '/' ++ t' = t' from rfl, ht2]
        exact ⟨rfl, 0, rfl⟩
      | succ k1 =>
        cases k1 with
        | zero =>
          have hsh : List.replicate (0 + 1) '/' ++ t' = '/' :: t' := by
            simp [List.replicate]
          rw [hsh]
          have hne : ('/' :: t').take 2 ≠ ['/', '/'] := by
            intro hcon
            rcases ht' with rfl | h | h
            · simp at hcon
            · cases t' with
              | nil => cases h
              | cons a r =>
                cases h
                simp at hcon
            · cases t' with
              | nil => cases h
              | cons a r =>
                cases h
                simp at hcon
          have : netlocPart ('/' :: t') = ([], '/' :: t') := by
            unfold netlocPart
            rw [if_neg hne]
          rw [this]
          refine ⟨rfl, 1, ?_⟩
          simp [List.replicate]
        | succ k2 =>
          have hsh : List.replicate (k2 + 1 + 1) '/' ++ t'
              = '/' :: '/' :: (List.replicate k2 '/' ++ t') := by
            simp [List.replicate_succ]
          rw [hsh]
          have hthis : netlocPart ('/' :: '/' :: (List.replicate k2 '/' ++ t'))
              = splitNetloc (List.replicate k2 '/' ++ t') := by
            simp [netlocPart]
          rw [hthis, hnd_nil _ hundel]
          exact ⟨rfl, k2, rfl⟩
    | cons c cr1 =>
      have hlne : ((c :: cr1) ++ (List.replicate k '/' ++ t')).take 2 ≠ ['/', '/'] := by
        intro hcon
        cases cr1 with
        | nil =>
          have hc : c = '/' := by
            simp only [List.cons_append, List.nil_append, List.take_succ_cons,
              List.cons.injEq] at hcon
            exact hcon.1
          exact hlast c rfl hc
        | cons d cr2 =>
          simp only [List.cons_append, List.take_succ_cons, List.take_zero,
            List.cons.injEq, and_true] at hcon
          apply h2
          simp [hcon.1, hcon.2]
      have hl : netlocPart ((c :: cr1) ++ (List.replicate k '/' ++ t'))
          = ([], (c :: cr1) ++ (List.replicate k '/' ++ t')) := by
        unfold netlocPart
        rw [if_neg hlne]
      have hc : netlocPart (c :: cr1) = ([], c :: cr1) := by
        unfold netlocPart
        rw [if_neg h2]
      rw [hl, hc]
      exact ⟨rfl, k, rfl⟩

/-! ### Path part -/

theorem splitParams_id {p : List Char} (h : ';' ∉ p) : splitParams p = p := by
  unfold splitParams
  rw [if_neg]
  intro hc
  rw [List.contains_eq_any_beq, List.any_eq_true] at hc
  obtain ⟨x, hx, hbeq⟩ := hc
  rw [beq_iff_eq] at hbeq
  exact h (hbeq ▸ hx)

theorem qfStrip (z t' : List Char) (hhash : '#' ∉ z) (hq : '?' ∉ z) (ht' : QfSuffix t') :
    ((z ++ t').takeWhile (· ≠ '#')).takeWhile (· ≠ '?') = z := by
  have hz1 : ∀ c ∈ z, (fun c => decide (c ≠ '#')) c = true := by
    intro c hc
    simp only [decide_eq_true_eq]
    exact fun hcon => hhash (hcon ▸ hc)
  have hz2 : ∀ c ∈ z, (fun c => decide (c ≠ '?')) c = true := by
    intro c hc
    simp only [decide_eq_true_eq]
    exact fun hcon => hq (hcon ▸ hc)
  rcases ht' with rfl | h | h
  · rw [List.append_nil, takeWhile_eq_self hz1, takeWhile_eq_self hz2]
  · obtain ⟨r, rfl⟩ : ∃ r, t' = '#' :: r := by
      cases t' with
      | nil => cases h
      | cons a r => cases h; exact ⟨r, rfl⟩
    rw [takeWhile_append_head_false hz1 (by decide) r, takeWhile_eq_self hz2]
  · obtain ⟨r, rfl⟩ : ∃ r, t' = '?' :: r := by
      cases t' with
      | nil => cases h
      | cons a r => cases h; exact ⟨r, rfl⟩
    rw [takeWhile_append_all hz1, List.takeWhile_cons]
    simp only [decide_eq_true_eq]
    rw [if_pos (by decide : ('?' : Char) ≠ '#')]
    rw [takeWhile_append_head_false hz2 (by decide) _]

theorem pathPart_append (scheme x : List Char) (m : Nat) (t' : List Char)
    (hhash : '#' ∉ x) (hq : '?' ∉ x) (hsemi : ';' ∉ x) (ht' : QfSuffix t') :
    pathPart scheme (x ++ (List.replicate m '/' ++ t')) = x ++ List.replicate m '/'
    ∧ pathPart scheme x = x := by
  have hz : ∀ (c : Char) (hp : c ∈ x ++ List.replicate m '/'),
      c ≠ '#' ∧ c ≠ '?' ∧ c ≠ ';' := by
    intro c hp
    rcases List.mem_append.mp hp with hx | hr
    · exact ⟨fun hcon => hhash (hcon ▸ hx), fun hcon => hq (hcon ▸ hx),
        fun hcon => hsemi (hcon ▸ hx)⟩
    · rw [List.eq_of_mem_replicate hr]
      exact ⟨by decide, by decide, by decide⟩
  have hh1 : '#' ∉ x ++ List.replicate m '/' := fun hc => (hz '#' hc).1 rfl
  have hh2 : '?' ∉ x ++ List.replicate m '/' := fun hc => (hz '?' hc).2.1 rfl
  have hh3 : ';' ∉ x ++ List.replicate m '/' := fun hc => (hz ';' hc).2.2 rfl
  constructor
  · unfold pathPart
    rw [← List.append_assoc, qfStrip _ _ hh1 hh2 ht']
    split
    · exact splitParams_id hh3
    · rfl
  · unfold pathPart
    have := qfStrip x [] hhash hq (Or.inl rfl)
    rw [List.append_nil] at this
    rw [this]
    split
    · exact splitParams_id hsemi
    · rfl

/-! ### Reassembly and final strip -/

theorem rstrip_schemeWrap (s x : List Char) (k : Nat) :
    rstripSlash (if s ≠ [] then s ++ ':' :: (x ++ List.replicate k '/')
                 else x ++ List.replicate k '/')
      = rstripSlash (if s ≠ [] then s ++ ':' :: x else x) := by
  have hsh : ∀ y : List Char, s ++ ':' :: y = (s ++ [':']) ++ y := by
    intro y
    simp
  by_cases hs : s ≠ []
  · rw [if_pos hs, if_pos hs, hsh, hsh, ← List.append_assoc,
      rstripSlash_append_replicate]
    simp
  · rw [if_neg hs, if_neg hs, rstripSlash_append_replicate]

theorem rstrip_wrap_slashes (s : List Char) (a b : Nat) :
    rstripSlash (if s ≠ [] then s ++ ':' :: List.replicate a '/' else List.replicate a '/')
      = rstripSlash (if s ≠ [] then s ++ ':' :: List.replicate b '/'
                     else List.replicate b '/') := by
  by_cases hs : s ≠ []
  · rw [if_pos hs, if_pos hs, rstripSlash_scheme_slashes, rstripSlash_scheme_slashes]
  · rw [if_neg hs, if_neg hs, rstripSlash_replicate, rstripSlash_replicate]

/-- Appending trailing slashes to the path component never changes the
reassembled-and-stripped URL, for any scheme and netloc. -/
theorem unsplit_rstrip_append (s n p : List Char) (k : Nat) :
    rstripSlash (unsplit s n (p ++ List.replicate k '/')) = rstripSlash (unsplit s n p) := by
  cases k with
  | zero => simp
  | succ kk =>
    simp only [unsplit]
    rcases Decidable.em (n = []) with hn | hn
    · subst hn
      by_cases hb : s ≠ [] ∧ String.mk s ∈ usesNetloc
      · cases p with
        | nil =>
          have tC : ([] : List Char) ≠ [] ∨ (s ≠ [] ∧ String.mk s ∈ usesNetloc
              ∧ ([] : List Char).take 2 ≠ ['/', '/']) :=
            Or.inr ⟨hb.1, hb.2, by simp⟩
          have pcC : ¬(([] : List Char) ≠ [] ∧ ([] : List Char).head? ≠ some '/') := by simp
          rw [if_pos tC, if_neg pcC]
          cases kk with
          | zero =>
            simp only [Nat.zero_add]
            have tL : ([] : List Char) ≠ [] ∨ (s ≠ [] ∧ String.mk s ∈ usesNetloc
                ∧ (([] : List Char) ++ List.replicate 1 '/').take 2 ≠ ['/', '/']) :=
              Or.inr ⟨hb.1, hb.2, by simp [List.replicate]⟩
            have pcL : ¬(([] : List Char) ++ List.replicate 1 '/' ≠ []
                ∧ (([] : List Char) ++ List.replicate 1 '/').head? ≠ some '/') := by
              simp [List.replicate]
            rw [if_pos tL, if_neg pcL]
            have e1 : '/' :: '/' :: (([] : List Char)
                ++ (([] : List Char) ++ List.replicate 1 '/')) = List.replicate 3 '/' := by
              simp [List.replicate]
            have e2 : '/' :: '/' :: (([] : List Char) ++ ([] : List Char))
                = List.replicate 2 '/' := by simp [List.replicate]
            rw [e1, e2, rstrip_wrap_slashes]
          | succ k2 =>
            have tL : ¬(([] : List Char) ≠ [] ∨ (s ≠ [] ∧ String.mk s ∈ usesNetloc
                ∧ (([] : List Char) ++ List.replicate (k2 + 1 + 1) '/').take 2
                    ≠ ['/', '/'])) := by
              rintro (h | h)
              · exact h rfl
              · exact h.2.2 (by simp [List.replicate_succ])
            rw [if_neg tL]
            have e1 : ([] : List Char) ++ List.replicate (k2 + 1 + 1) '/'
                = List.replicate (k2 + 1 + 1) '/' := by simp
            have e2 : '/' :: '/' :: (([] : List Char) ++ ([] : List Char))
                = List.replicate 2 '/' := by simp [List.replicate]
            rw [e1, e2, rstrip_wrap_slashes]
        | cons q qs =>
          cases qs with
          | nil =>
            by_cases hq : q = '/'
            · subst hq
              have tC : ([] : List Char) ≠ [] ∨ (s ≠ [] ∧ String.mk s ∈ usesNetloc
                  ∧ ['/'].take 2 ≠ ['/', '/']) :=
                Or.inr ⟨hb.1, hb.2, by simp⟩
              have pcC : ¬((['/'] : List Char) ≠ [] ∧ (['/'] : List Char).head? ≠ some '/') := by
                simp
              rw [if_pos tC, if_neg pcC]
              have tL : ¬(([] : List Char) ≠ [] ∨ (s ≠ [] ∧ String.mk s ∈ usesNetloc
                  ∧ ((['/'] : List Char) ++ List.replicate (kk + 1) '/').take 2
                      ≠ ['/', '/'])) := by
                rintro (h | h)
                · exact h rfl
                · exact h.2.2 (by simp [List.replicate_succ])
              rw [if_neg tL]
              have e1 : (['/'] : List Char) ++ List.replicate (kk + 1) '/'
                  = List.replicate (kk + 1 + 1) '/' := by simp [List.replicate_succ]
              have e2 : '/' :: '/' :: (([] : List Char) ++ (['/'] : List Char))
                  = List.replicate 3 '/' := by simp [List.replicate]
              rw [e1, e2, rstrip_wrap_slashes]
            · have tC : ([] : List Char) ≠ [] ∨ (s ≠ [] ∧ String.mk s ∈ usesNetloc
                  ∧ ([q] : List Char).take 2 ≠ ['/', '/']) :=
                Or.inr ⟨hb.1, hb.2, by simp [hq]⟩
              have tL : ([] : List Char) ≠ [] ∨ (s ≠ [] ∧ String.mk s ∈ usesNetloc
                  ∧ (([q] : List Char) ++ List.replicate (kk + 1) '/').take 2
                      ≠ ['/', '/']) :=
                Or.inr ⟨hb.1, hb.2, by simp [List.replicate_succ, hq]⟩
              have pcC : ([q] : List Char) ≠ [] ∧ ([q] : List Char).head? ≠ some '/' :=
                ⟨by simp, by simp [hq]⟩
              have pcL : ([q] : List Char) ++ List.replicate (kk + 1) '/' ≠ []
                  ∧ (([q] : List Char) ++ List.replicate (kk + 1) '/').head? ≠ some '/' :=
                ⟨by simp, by simp [hq]⟩
              rw [if_pos tL, if_pos tC, if_pos pcL, if_pos pcC]
              have e1 : '/' :: '/' :: (([] : List Char)
                  ++ '/' :: (([q] : List Char) ++ List.replicate (kk + 1) '/'))
                  = ('/' :: '/' :: (([] : List Char) ++ '/' :: ([q] : List Char)))
                    ++ List.replicate (kk + 1) '/' := by simp
              rw [e1, rstrip_schemeWrap]
          | cons q2 qs2 =>
            have htC : (q :: q2 :: qs2).take 2 = [q, q2] := rfl
            have htL : ((q :: q2 :: qs2) ++ List.replicate (kk + 1) '/').take 2
                = [q, q2] := rfl
            by_cases hqq : ([q, q2] : List Char) = ['/', '/']
            · have tCneg : ¬(([] : List Char) ≠ [] ∨ (s ≠ [] ∧ String.mk s ∈ usesNetloc
                  ∧ (q :: q2 :: qs2).take 2 ≠ ['/', '/'])) := by
                rintro (h | h)
                · exact h rfl
                · exact h.2.2 (htC.trans hqq)
              have tLneg : ¬(([] : List Char) ≠ [] ∨ (s ≠ [] ∧ String.mk s ∈ usesNetloc
                  ∧ ((q :: q2 :: qs2) ++ List.replicate (kk + 1) '/').take 2
                      ≠ ['/', '/'])) := by
                rintro (h | h)
                · exact h rfl
                · exact h.2.2 (htL.trans hqq)
              rw [if_neg tLneg, if_neg tCneg, rstrip_schemeWrap]
            · have tC : ([] : List Char) ≠ [] ∨ (s ≠ [] ∧ String.mk s ∈ usesNetloc
                  ∧ (q :: q2 :: qs2).take 2 ≠ ['/', '/']) :=
                Or.inr ⟨hb.1, hb.2, by rw [htC]; exact hqq⟩
              have tL : ([] : List Char) ≠ [] ∨ (s ≠ [] ∧ String.mk s ∈ usesNetloc
                  ∧ ((q :: q2 :: qs2) ++ List.replicate (kk + 1) '/').take 2
                      ≠ ['/', '/']) :=
                Or.inr ⟨hb.1, hb.2, by rw [htL]; exact hqq⟩
              rw [if_pos tL, if_pos tC]
              by_cases hq : q = '/'
              · have pcC : ¬((q :: q2 :: qs2) ≠ []
                    ∧ (q :: q2 :: qs2).head? ≠ some '/') := by simp [hq]
                have pcL : ¬((q :: q2 :: qs2) ++ List.replicate (kk + 1) '/' ≠ []
                    ∧ ((q :: q2 :: qs2) ++ List.replicate (kk + 1) '/').head?
                        ≠ some '/') := by simp [hq]
                rw [if_neg pcL, if_neg pcC]
                have e1 : '/' :: '/' :: (([] : List Char)
                    ++ ((q :: q2 :: qs2) ++ List.replicate (kk + 1) '/'))
                    = ('/' :: '/' :: (([] : List Char) ++ (q :: q2 :: qs2)))
                      ++ List.replicate (kk + 1) '/' := by simp
                rw [e1, rstrip_schemeWrap]
              · have pcC : (q :: q2 :: qs2) ≠ []
                    ∧ (q :: q2 :: qs2).head? ≠ some '/' := ⟨by simp, by simp [hq]⟩
                have pcL : (q :: q2 :: qs2) ++ List.replicate (kk + 1) '/' ≠ []
                    ∧ ((q :: q2 :: qs2) ++ List.replicate (kk + 1) '/').head?
                        ≠ some '/' := ⟨by simp, by simp [hq]⟩
                rw [if_pos pcL, if_pos pcC]
                have e1 : '/' :: '/' :: (([] : List Char)
                    ++ '/' :: ((q :: q2 :: qs2) ++ List.replicate (kk + 1) '/'))
                    = ('/' :: '/' :: (([] : List Char) ++ '/' :: (q :: q2 :: qs2)))
                      ++ List.replicate (kk + 1) '/' := by simp
                rw [e1, rstrip_schemeWrap]
      · have tLneg : ¬(([] : List Char) ≠ [] ∨ (s ≠ [] ∧ String.mk s ∈ usesNetloc
            ∧ (p ++ List.replicate (kk + 1) '/').take 2 ≠ ['/', '/'])) := by
          rintro (h | h)
          · exact h rfl
          · exact hb ⟨h.1, h.2.1⟩
        have tCneg : ¬(([] : List Char) ≠ [] ∨ (s ≠ [] ∧ String.mk s ∈ usesNetloc
            ∧ p.take 2 ≠ ['/', '/'])) := by
          rintro (h | h)
          · exact h rfl
          · exact hb ⟨h.1, h.2.1⟩
        rw [if_neg tLneg, if_neg tCneg, rstrip_schemeWrap]
    · have tL : n ≠ [] ∨ (s ≠ [] ∧ String.mk s ∈ usesNetloc
          ∧ (p ++ List.replicate (kk + 1) '/').take 2 ≠ ['/', '/']) := Or.inl hn
      have tC : n ≠ [] ∨ (s ≠ [] ∧ String.mk s ∈ usesNetloc
          ∧ p.take 2 ≠ ['/', '/']) := Or.inl hn
      rw [if_pos tL, if_pos tC]
      cases p with
      | nil =>
        have pcC : ¬(([] : List Char) ≠ [] ∧ ([] : List Char).head? ≠ some '/') := by simp
        have pcL : ¬(([] : List Char) ++ List.replicate (kk + 1) '/' ≠ []
            ∧ (([] : List Char) ++ List.replicate (kk + 1) '/').head? ≠ some '/') := by
          simp [List.replicate_succ]
        rw [if_neg pcL, if_neg pcC]
        have e1 : '/' :: '/' :: (n ++ (([] : List Char) ++ List.replicate (kk + 1) '/'))
            = ('/' :: '/' :: (n ++ ([] : List Char))) ++ List.replicate (kk + 1) '/' := by
          simp
        rw [e1, rstrip_schemeWrap]
      | cons q qs =>
        by_cases hq : q = '/'
        · have pcC : ¬((q :: qs) ≠ [] ∧ (q :: qs).head? ≠ some '/') := by simp [hq]
          have pcL : ¬((q :: qs) ++ List.replicate (kk + 1) '/' ≠ []
              ∧ ((q :: qs) ++ List.replicate (kk + 1) '/').head? ≠ some '/') := by
            simp [hq]
          rw [if_neg pcL, if_neg pcC]
          have e1 : '/' :: '/' :: (n ++ ((q :: qs) ++ List.replicate (kk + 1) '/'))
              = ('/' :: '/' :: (n ++ (q :: qs))) ++ List.replicate (kk + 1) '/' := by simp
          rw [e1, rstrip_schemeWrap]
        · have pcC : (q :: qs) ≠ [] ∧ (q :: qs).head? ≠ some '/' := ⟨by simp, by simp [hq]⟩
          have pcL : (q :: qs) ++ List.replicate (kk + 1) '/' ≠ []
              ∧ ((q :: qs) ++ List.replicate (kk + 1) '/').head? ≠ some '/' :=
            ⟨by simp, by simp [hq]⟩
          rw [if_pos pcL, if_pos pcC]
          have e1 : '/' :: '/' :: (n ++ '/' :: ((q :: qs) ++ List.replicate (kk + 1) '/'))
              = ('/' :: '/' :: (n ++ '/' :: (q :: qs))) ++ List.replicate (kk + 1) '/' := by
            simp
          rw [e1, rstrip_schemeWrap]

/-! ### Composition -/

theorem netlocPart_suffix (r : List Char) : ∃ pre, r = pre ++ (netlocPart r).2 := by
  unfold netlocPart
  split
  · next htake =>
    refine ⟨r.take 2 ++ (r.drop 2).takeWhile (fun c => !isNetlocDelim c), ?_⟩
    unfold splitNetloc
    rw [List.append_assoc, List.takeWhile_append_dropWhile, List.take_append_drop]
  · exact ⟨[], rfl⟩

/-- The parse-and-reassemble part of `_normalize_url` ignores trailing slashes
and a query/fragment suffix appended to a clean (`#`-, `?`-, `;`-free, not
slash-terminated) base. -/
theorem parseNormalize_append (core : List Char) (k : Nat) (t' : List Char)
    (hhash : '#' ∉ core) (hq : '?' ∉ core) (hsemi : ';' ∉ core)
    (hlast : ∀ c, core.getLast? = some c → c ≠ '/')
    (ht' : QfSuffix t') :
    parseNormalize (core ++ (List.replicate k '/' ++ t')) = parseNormalize core := by
  unfold parseNormalize
  rw [splitScheme_append core _ (repQf_head ht')]
  obtain ⟨pre, hpre⟩ := splitScheme_suffix core
  have hmem : ∀ c ∈ (splitScheme core).2, c ∈ core := by
    intro c hc
    rw [hpre]
    exact List.mem_append.mpr (Or.inr hc)
  have hhash1 : '#' ∉ (splitScheme core).2 := fun hc => hhash (hmem _ hc)
  have hq1 : '?' ∉ (splitScheme core).2 := fun hc => hq (hmem _ hc)
  have hsemi1 : ';' ∉ (splitScheme core).2 := fun hc => hsemi (hmem _ hc)
  have hlast1 : ∀ c, (splitScheme core).2.getLast? = some c → c ≠ '/' := by
    intro c hc
    apply hlast
    rw [hpre, List.getLast?_append, hc]
    rfl
  obtain ⟨hn1, m, hn2⟩ :=
    netlocPart_append (splitScheme core).2 k t' hhash1 hq1 hlast1 ht'
  obtain ⟨pre2, hpre2⟩ := netlocPart_suffix (splitScheme core).2
  have hmem2 : ∀ c ∈ (netlocPart (splitScheme core).2).2, c ∈ (splitScheme core).2 := by
    intro c hc
    rw [hpre2]
    exact List.mem_append.mpr (Or.inr hc)
  obtain ⟨hpathL, hpathC⟩ := pathPart_append (splitScheme core).1
    (netlocPart (splitScheme core).2).2 m t'
    (fun hc => hhash1 (hmem2 _ hc)) (fun hc => hq1 (hmem2 _ hc))
    (fun hc => hsemi1 (hmem2 _ hc)) ht'
  dsimp only
  rw [hn1, hn2, hpathL, hpathC, unsplit_rstrip_append]

/-- `_normalize_url` on a link decomposed as base + trailing slashes +
query/fragment suffix depends only on the base. -/
theorem normalizeChars_decomp (base : List Char) (k : Nat) (t : List Char)
    (hhash : '#' ∉ base) (hq : '?' ∉ base) (hsemi : ';' ∉ base) (ht : QfSuffix t) :
    normalizeChars (base ++ List.replicate k '/' ++ t)
      = parseNormalize (rstripSlash (sanitizeUrl base)) := by
  unfold normalizeChars
  rw [sanitizeUrl_decomp base k t ht]
  obtain ⟨m, hm⟩ := rstripSlash_decomp (sanitizeUrl base)
  have hmem : ∀ c ∈ rstripSlash (sanitizeUrl base), c ∈ base :=
    fun c hc => mem_sanitizeUrl (mem_rstripSlash hc)
  have hshape : sanitizeUrl base ++ List.replicate k '/'
        ++ t.filter (fun c => !(c = '\t' || c = '\r' || c = '\n'))
      = rstripSlash (sanitizeUrl base)
        ++ (List.replicate (m + k) '/'
            ++ t.filter (fun c => !(c = '\t' || c = '\r' || c = '\n'))) := by
    conv_lhs => rw [hm]
    rw [List.replicate_add]
    simp [List.append_assoc]
  rw [hshape]
  exact parseNormalize_append (rstripSlash (sanitizeUrl base)) (m + k) _
    (fun hc => hhash (hmem _ hc)) (fun hc => hq (hmem _ hc))
    (fun hc => hsemi (hmem _ hc)) (rstripSlash_getLast _) (filter_qfSuffix ht)

set_option maxRecDepth 40000 in
/-- Counterexample to C4 as stated: the links `http://a/p;x` and
`http://a/p;x/` differ only by a trailing slash (same title), yet their URL
fingerprints differ — `urlparse` splits the `;x` params off the last path
segment only when that segment does not end in `/`, so the first normalizes to
`http://a/p` and the second to `http://a/p;x`. -/
theorem c4_counterexample_params_trailing_slash :
    (⟨"s", "t", "http://a/p;x/", "", none, "", false, none⟩ : Item).link
      = (⟨"s", "t", "http://a/p;x", "", none, "", false, none⟩ : Item).link ++ "/"
    ∧ (⟨"s", "t", "http://a/p;x", "", none, "", false, none⟩ : Item).title
      = (⟨"s", "t", "http://a/p;x/", "", none, "", false, none⟩ : Item).title
    ∧ generate_url_hash (⟨"s", "t", "http://a/p;x", "", none, "", false, none⟩ : Item)
      ≠ generate_url_hash (⟨"s", "t", "http://a/p;x/", "", none, "", false, none⟩ : Item) := by
  refine ⟨rfl, rfl, ?_⟩
  decide

/-- C4 (amended): the content fingerprint is a total deterministic function of
(title, link) — equal titles and links give equal content fingerprints, for
any link including empty or malformed ones; two nonempty links that differ
only in query string, fragment, or trailing slashes — decomposed over a
common base holding neither `#`, `?` nor `;` — have equal URL fingerprints
(the `;` proviso is forced by the counterexample: `urlparse` also strips
`;params` from the last path segment); and an empty link has an absent URL
fingerprint. -/
theorem c4_fingerprints_amended :
    (∀ a b : Item, a.title = b.title → a.link = b.link →
        generate_news_hash a = generate_news_hash b)
    ∧ (∀ (a b : Item) (base : List Char) (k₁ k₂ : Nat) (t₁ t₂ : List Char),
        '#' ∉ base → '?' ∉ base → ';' ∉ base →
        QfSuffix t₁ → QfSuffix t₂ →
        a.link.data = base ++ List.replicate k₁ '/' ++ t₁ →
        b.link.data = base ++ List.replicate k₂ '/' ++ t₂ →
        a.link ≠ "" → b.link ≠ "" →
        generate_url_hash a = generate_url_hash b)
    ∧ (∀ a : Item, a.link = "" → generate_url_hash a = none) := by
  refine ⟨?_, ?_, ?_⟩
  · intro a b ht hl
    unfold generate_news_hash
    rw [ht, hl]
  · intro a b base k₁ k₂ t₁ t₂ hhash hq hsemi ht₁ ht₂ ha hb hane hbne
    unfold generate_url_hash
    rw [if_neg hane, if_neg hbne]
    have hnorm : normalize_url a.link = normalize_url b.link := by
      unfold normalize_url
      rw [ha, hb, normalizeChars_decomp base k₁ t₁ hhash hq hsemi ht₁,
        normalizeChars_decomp base k₂ t₂ hhash hq hsemi ht₂]
    rw [hnorm]
  · intro a ha
    unfold generate_url_hash
    rw [if_pos ha]

set_option maxRecDepth 40000 in
/-- Witness for C4: equal title+link give the same content fingerprint; the
links `http://x.com/p?q=1` and `http://x.com/p/#f` (same base, query vs
trailing slash + fragment) give the same URL fingerprint; an empty link gives
an absent URL fingerprint. -/
theorem c4_fingerprints_amended_witness :
    generate_news_hash (⟨"s1", "T", "http://x.com/p", "", none, "", false, none⟩ : Item)
      = generate_news_hash (⟨"s2", "T", "http://x.com/p", "x", none, "y", false, none⟩ : Item)
    ∧ generate_url_hash (⟨"s", "A", "http://x.com/p?q=1", "", none, "", false, none⟩ : Item)
      = generate_url_hash (⟨"s", "B", "http://x.com/p/#f", "", none, "", false, none⟩ : Item)
    ∧ generate_url_hash (⟨"s", "C", "", "", none, "", false, none⟩ : Item) = none :=
  ⟨c4_fingerprints_amended.1 _ _ rfl rfl,
   c4_fingerprints_amended.2.1 _ _ "http://x.com/p".data 0 1 "?q=1".data "#f".data
     (by decide) (by decide) (by decide)
     (Or.inr (Or.inr rfl)) (Or.inr (Or.inl rfl))
     (by decide) (by decide) (by decide) (by decide),
   c4_fingerprints_amended.2.2 _ rfl⟩

end VCNews

